import Mathlib

/-!
# Verification of the maspart Excel part-search engine

Shallow embedding of `src/app.py` (class `ExcelSearchApp`): the inverted-index
builder, the part-number / part-name search functions, the stock-database
loader and lookup, the file fingerprint and per-file cache logic, and the
auto-load (rebuild) decision logic.  Python strings are Lean `String`s,
nullable spreadsheet cells are `Option String` (NaN = `none`), Python dicts
are insertion-ordered association lists, and Python lists are Lean lists.
-/

namespace Maspart

/-- Python's `needle in hay` substring test, on the underlying character
lists. -/
def strContains (hay needle : String) : Bool :=
  decide (needle.data <:+: hay.data)

/-- Python's `s.strip()`: drop leading and trailing whitespace. -/
def pyTrim (s : String) : String :=
  ⟨((s.data.dropWhile Char.isWhitespace).reverse.dropWhile Char.isWhitespace).reverse⟩

/-- Python's `s.upper()`. -/
def pyUpper (s : String) : String :=
  ⟨s.data.map Char.toUpper⟩

/-- Python's `s.lower()`. -/
def pyLower (s : String) : String :=
  ⟨s.data.map Char.toLower⟩

/-- Scanner for `s.split()`: `cur` holds the reversed characters of the
word currently being read. -/
def pyWordsAux : List Char → List Char → List String
  | [], cur => if cur.isEmpty then [] else [⟨cur.reverse⟩]
  | c :: cs, cur =>
    if c.isWhitespace then
      if cur.isEmpty then pyWordsAux cs [] else ⟨cur.reverse⟩ :: pyWordsAux cs []
    else pyWordsAux cs (c :: cur)

/-- Python's `s.split()`: split on whitespace runs, dropping empty pieces. -/
def pyWords (s : String) : List String :=
  pyWordsAux s.data []

/-- Python's `s.split('.')[-1]`: the characters after the last dot (the
whole list when no dot occurs). -/
def afterLastDot (l : List Char) : List Char :=
  (l.reverse.takeWhile (fun c => c ≠ '.')).reverse

/-- Scanner for `s.split(" - ")`: splits at non-overlapping occurrences of
the separator, left to right; `fuel` bounds the scan by the input length. -/
def splitDashSepAux : Nat → List Char → List Char → List (List Char)
  | 0, rest, cur => [cur.reverse ++ rest]
  | _ + 1, [], cur => [cur.reverse]
  | fuel + 1, c :: cs, cur =>
    if (' ' :: '-' :: ' ' :: []).isPrefixOf (c :: cs) then
      cur.reverse :: splitDashSepAux fuel (cs.drop 2) []
    else splitDashSepAux fuel cs (c :: cur)

/-- Python's `s.split(" - ")`. -/
def splitDashSep (l : List Char) : List (List Char) :=
  splitDashSepAux l.length l []

/-- One projected data row: columns B, D, E of a sheet
(`part_number`, `part_name`, `quantity`), each cell a string or NaN. -/
structure Row where
  part_number : Option String
  part_name : Option String
  quantity : Option String
deriving Repr, DecidableEq

/-- `str(cell).strip().upper() if pd.notna(cell) else ""`
(app.py lines 213-214). -/
def normCell : Option String → String
  | none => ""
  | some s => pyUpper (pyTrim s)

/-- `str(cell) if pd.notna(cell) else "N/A"` — the display coercion used when
building a search result (app.py lines 496-498, 553-555). -/
def dispStr : Option String → String
  | none => "N/A"
  | some s => s

/-- Insertion-ordered dictionary (Python `dict`) as an association list with
unique keys. -/
abbrev Dict (α : Type) := List (String × α)

/-- Python dict `get`. -/
def lookupDict {α : Type} (d : Dict α) (k : String) : Option α :=
  (d.find? (fun p => p.1 == k)).map (fun p => p.2)

/-- `if k not in d: d[k] = []` followed by `d[k].append(i)`
(app.py lines 216-227): append `i` to the key's list, inserting the key at
the end of the insertion order if absent. -/
def dictAppend (d : Dict (List Nat)) (k : String) (i : Nat) : Dict (List Nat) :=
  if d.any (fun p => p.1 == k) then
    d.map (fun p => if p.1 == k then (p.1, p.2 ++ [i]) else p)
  else d ++ [(k, [i])]

/-- Python dict assignment `d[k] = v`. -/
def dictSet (d : Dict String) (k v : String) : Dict String :=
  if d.any (fun p => p.1 == k) then
    d.map (fun p => if p.1 == k then (p.1, v) else p)
  else d ++ [(k, v)]

/-- The per-sheet index-building loop of `process_single_file`
(app.py lines 208-227): iterate the dataset rows with their 0-based
positions `i`; a non-empty normalized part number contributes `i` to
`part_number_index[value]`; every word of length > 2 of the normalized
part name contributes `i` to `part_name_index[word]`. -/
def buildIndexes : List Row → Nat → Dict (List Nat) × Dict (List Nat) →
    Dict (List Nat) × Dict (List Nat)
  | [], _, idxs => idxs
  | r :: rs, i, (pnIdx, nmIdx) =>
    let part_num := normCell r.part_number
    let part_name := normCell r.part_name
    let pnIdx' := if part_num ≠ "" then dictAppend pnIdx part_num i else pnIdx
    let nmIdx' :=
      if part_name ≠ "" then
        (pyWords part_name).foldl
          (fun d w => if w.length > 2 then dictAppend d w i else d) nmIdx
      else nmIdx
    buildIndexes rs (i + 1) (pnIdx', nmIdx')

/-- `extract_simple_filename` (app.py lines 344-349): drop the extension,
then keep the part after the last `" - "` if present.  (The extension drop
models `os.path.splitext` for ordinary names with a non-leading dot.) -/
def extract_simple_filename (filename : String) : String :=
  let name_without_ext : String :=
    if filename.data.any (fun c => c = '.') then
      ⟨((filename.data.reverse.dropWhile (fun c => c ≠ '.')).drop 1).reverse⟩
    else filename
  if strContains name_without_ext " - " then
    ⟨(splitDashSep name_without_ext.data).getLastD []⟩
  else name_without_ext

/-- One `file_info` record produced per sheet by `process_single_file`
(app.py lines 229-241): one WorkbookRecord.  `col_count` and
`last_modified` are display-only fields and are omitted. -/
structure FileInfo where
  full_path : String
  file_name : String
  relative_path : String
  simple_name : String
  sheet : String
  dataframe : List Row
  row_count : Nat
  part_number_index : Dict (List Nat)
  part_name_index : Dict (List Nat)
deriving Repr, DecidableEq

/-- Build the WorkbookRecord for one parsed sheet, deriving the simplified
name and the two inverted indexes exactly as `process_single_file` does. -/
def mkFileInfo (full_path file_name relative_path sheet : String)
    (rows : List Row) : FileInfo :=
  let idxs := buildIndexes rows 0 ([], [])
  { full_path := full_path
    file_name := file_name
    relative_path := relative_path
    simple_name := extract_simple_filename file_name
    sheet := sheet
    dataframe := rows
    row_count := rows.length
    part_number_index := idxs.1
    part_name_index := idxs.2 }

/-! ## Stock database (`load_stock_database`, `get_stock_from_database`) -/

/-- Header-row keyword blacklist (app.py line 411). -/
def skip_keywords : List String :=
  ["kode", "barang", "total", "nama", "gudang", "part", "number", "stock", "qty"]

/-- One raw stock-sheet row: column A (part number) and column D (stock),
each a string or NaN. -/
abbrev StockRow := Option String × Option String

/-- The per-row cleaning of `load_stock_database` (app.py lines 398-426):
`fillna('')`/`fillna('0')` then `strip` on both cells, drop empty part
numbers, drop header-keyword rows, collapse `prefix.code` to the part after
the last dot, trim/uppercase, drop rows whose cleaned key is empty.
Returns the `(key, stockValue)` pair to store, or `none` if dropped. -/
def clean_stock_row (r : StockRow) : Option (String × String) :=
  let part_number := pyTrim (r.1.getD "")
  let stock := pyTrim (r.2.getD "0")
  if part_number = "" then none
  else if skip_keywords.any (fun kw => strContains (pyLower part_number) kw) then none
  else
    let part_num_clean :=
      if strContains part_number "." then
        pyUpper (pyTrim ⟨afterLastDot part_number.data⟩)
      else pyUpper (pyTrim part_number)
    if part_num_clean = "" then none
    else some (part_num_clean, stock)

/-- Fold one stock file's rows into the stock dictionary
(app.py lines 406-429), last write wins. -/
def load_stock_file (db : Dict String) (rows : List StockRow) : Dict String :=
  rows.foldl
    (fun d r =>
      match clean_stock_row r with
      | some kv => dictSet d kv.1 kv.2
      | none => d) db

/-- `load_stock_database` (app.py lines 351-441) over the already-read
stock files: start from the reset (empty) dictionary and fold every file's
rows in, last write wins across files.  (File discovery and parse failures
are outside the embedding: a failed file simply contributes no rows.) -/
def load_stock_database (stockFiles : List (List StockRow)) : Dict String :=
  stockFiles.foldl load_stock_file []

/-- `get_stock_from_database` (app.py lines 443-465): `"0"` when the
database is empty or the queried part number is falsy or the `"N/A"`
sentinel; otherwise exact dictionary lookup of the trimmed uppercased key,
defaulting to `"0"`. -/
def get_stock_from_database (db : Dict String) (part_number : String) : String :=
  if db.isEmpty then "0"
  else if part_number = "" ∨ part_number = "N/A" then "0"
  else
    match lookupDict db (pyUpper (pyTrim part_number)) with
    | some v => v
    | none => "0"

/-! ## Search (`search_part_number`, `search_part_name`) -/

/-- One search result row (the dict appended to `results`,
app.py lines 501-511 and 560-570). -/
structure MatchRes where
  file : String
  path : String
  sheet : String
  part_number : String
  part_name : String
  quantity : String
  stock : String
  excel_row : Nat
  full_path : String
deriving Repr, DecidableEq

/-- Build the result record for row position `idx` of a WorkbookRecord
(identical shape in both search functions). -/
def mkMatch (db : Dict String) (fi : FileInfo) (idx : Nat) : MatchRes :=
  let row := fi.dataframe.getD idx ⟨none, none, none⟩
  { file := fi.simple_name
    path := fi.relative_path
    sheet := fi.sheet
    part_number := dispStr row.part_number
    part_name := dispStr row.part_name
    quantity := dispStr row.quantity
    stock := get_stock_from_database db (dispStr row.part_number)
    excel_row := idx + 2
    full_path := fi.full_path }

/-- The file loop of `search_part_number` (app.py lines 478-519):
skip records whose simplified name was already satisfied; otherwise take the
first indexed part-number key (in insertion order) containing the term, emit
a Match at that key's first row position, and mark the simplified name. -/
def search_pn_loop (db : Dict String) (t : String) :
    List FileInfo → List String → List MatchRes
  | [], _ => []
  | fi :: rest, processed =>
    if fi.simple_name ∈ processed then search_pn_loop db t rest processed
    else
      match fi.part_number_index.find? (fun p => strContains p.1 t) with
      | some (_, idx :: _) =>
        mkMatch db fi idx :: search_pn_loop db t rest (fi.simple_name :: processed)
      | _ => search_pn_loop db t rest processed

/-- `search_part_number` (app.py lines 467-520). -/
def search_part_number (files : List FileInfo) (db : Dict String)
    (search_term : String) : List MatchRes :=
  let t := pyUpper (pyTrim search_term)
  if t = "" then [] else search_pn_loop db t files []

/-- The file loop of `search_part_name` (app.py lines 533-573):
skip records whose simplified name was already satisfied; union the
row-position lists of the query words found verbatim in the word index; if
non-empty, take the minimum candidate row and emit a Match only when the
full term occurs in that row's displayed part name. -/
def search_name_loop (db : Dict String) (t : String) :
    List FileInfo → List String → List MatchRes
  | [], _ => []
  | fi :: rest, processed =>
    if fi.simple_name ∈ processed then search_name_loop db t rest processed
    else
      let found := (pyWords t).foldl
        (fun acc w =>
          match lookupDict fi.part_name_index w with
          | some l => acc ++ l
          | none => acc) []
      match found with
      | [] => search_name_loop db t rest processed
      | x :: xs =>
        let idx := xs.foldl Nat.min x
        let row := fi.dataframe.getD idx ⟨none, none, none⟩
        if strContains (pyUpper (dispStr row.part_name)) t then
          mkMatch db fi idx :: search_name_loop db t rest (fi.simple_name :: processed)
        else search_name_loop db t rest processed

/-- `search_part_name` (app.py lines 522-574). -/
def search_part_name (files : List FileInfo) (db : Dict String)
    (search_term : String) : List MatchRes :=
  let t := pyUpper (pyTrim search_term)
  if t = "" then [] else search_name_loop db t files []

/-! ## Fingerprint and per-file cache logic -/

/-- The stat metadata a fingerprint is derived from.  The byte size is a
natural number; the modification time is abstracted to a natural number
(its decimal rendering stands in for Python's `str(st_mtime)`). -/
structure FileStat where
  st_size : Nat
  st_mtime : Nat
deriving Repr, DecidableEq

/-- `get_file_hash` (app.py lines 147-154): `none` when `stat` fails,
otherwise the string `f"{file_path}_{st_size}_{st_mtime}"`.  The source
additionally md5-hexdigests this string; the digest is a fixed function of
it, so we verify at the digest-input level. -/
def get_file_hash (file_path : String) (stat : Option FileStat) : Option String :=
  match stat with
  | none => none
  | some s =>
    some (file_path ++ "_" ++ Nat.repr s.st_size ++ "_" ++ Nat.repr s.st_mtime)

/-- The caching skeleton of `process_single_file` (app.py lines 184-255):
with a fingerprint, a non-falsy cached value is returned as-is; a `None`
fingerprint, a cache miss, or an empty (falsy) cached list all fall through
to a fresh parse.  The Excel parse itself is abstracted as the `parsed`
argument. -/
def process_single_file (file_hash : Option String)
    (cache : String → Option (List FileInfo)) (parsed : List FileInfo) :
    List FileInfo :=
  match file_hash with
  | some h =>
    match cache h with
    | some cached => if cached.isEmpty then parsed else cached
    | none => parsed
  | none => parsed

/-! ## Auto-load (rebuild) decision logic -/

/-- The engine-relevant Streamlit session state (app.py lines 126-135). -/
structure SessionState where
  excel_files : List FileInfo
  stock_database : Dict String
  last_index_time : Option Nat
  loaded_files_count : Nat
  last_file_count : Nat
deriving Repr, DecidableEq

/-- The session state created at process start (app.py lines 126-135). -/
def initialSessionState : SessionState :=
  { excel_files := []
    stock_database := []
    last_index_time := none
    loaded_files_count := 0
    last_file_count := 0 }

/-- `auto_load_excel_files` (app.py lines 257-342).  `discovered` holds the
per-file record lists returned by `process_single_file` for each discovered
workbook (parsing and completion order abstracted), `newStock` the stock
dictionary `load_stock_database` would produce, `now` the current time.
With no discovered files only `last_file_count` is reset; otherwise the
state is rebuilt wholesale iff the discovered count differs from the last
recorded count or no build has happened yet, and left untouched otherwise. -/
def auto_load_excel_files (st : SessionState)
    (discovered : List (List FileInfo)) (newStock : Dict String)
    (now : Nat) : SessionState :=
  if discovered.isEmpty then { st with last_file_count := 0 }
  else
    let current_file_count := discovered.length
    if current_file_count ≠ st.last_file_count ∨ st.last_index_time = none then
      let files := discovered.flatten
      { excel_files := files
        stock_database := newStock
        last_index_time := some now
        loaded_files_count := files.length
        last_file_count := current_file_count }
    else st

/-! ## Helper lemmas -/

lemma mkMatch_file (db : Dict String) (fi : FileInfo) (idx : Nat) :
    (mkMatch db fi idx).file = fi.simple_name := rfl

/-- Erase the stock annotation of a result record. -/
def eraseStock (m : MatchRes) : MatchRes := { m with stock := "" }

lemma eraseStock_mkMatch (db₁ db₂ : Dict String) (fi : FileInfo) (idx : Nat) :
    eraseStock (mkMatch db₁ fi idx) = eraseStock (mkMatch db₂ fi idx) := rfl

lemma pyUpper_empty : pyUpper "" = "" := rfl

/-- The part-number search loop never emits a result whose simplified file
name is already marked processed, and the emitted simplified names are
pairwise distinct. -/
lemma search_pn_loop_files_nodup (db : Dict String) (t : String) :
    ∀ (files : List FileInfo) (processed : List String),
      ((search_pn_loop db t files processed).map (fun m => m.file)).Nodup ∧
      ∀ s ∈ processed,
        s ∉ (search_pn_loop db t files processed).map (fun m => m.file) := by
  intro files
  induction files with
  | nil => intro processed; simp [search_pn_loop]
  | cons fi rest ih =>
    intro processed
    by_cases hmem : fi.simple_name ∈ processed
    · simpa [search_pn_loop, hmem] using ih processed
    · simp only [search_pn_loop, if_neg hmem]
      cases hf : fi.part_number_index.find? (fun p => strContains p.1 t) with
      | none => exact ih processed
      | some pr =>
        obtain ⟨k, l⟩ := pr
        cases l with
        | nil => exact ih processed
        | cons idx tl =>
          have h := ih (fi.simple_name :: processed)
          refine ⟨?_, ?_⟩
          · simp only [List.map_cons, mkMatch_file, List.nodup_cons]
            exact ⟨h.2 fi.simple_name (List.mem_cons_self _ _), h.1⟩
          · intro s hs
            simp only [List.map_cons, mkMatch_file, List.mem_cons, not_or]
            refine ⟨fun hse => hmem (hse ▸ hs), ?_⟩
            exact h.2 s (List.mem_cons_of_mem _ hs)

/-- The part-name search loop never emits a result whose simplified file
name is already marked processed, and the emitted simplified names are
pairwise distinct. -/
lemma search_name_loop_files_nodup (db : Dict String) (t : String) :
    ∀ (files : List FileInfo) (processed : List String),
      ((search_name_loop db t files processed).map (fun m => m.file)).Nodup ∧
      ∀ s ∈ processed,
        s ∉ (search_name_loop db t files processed).map (fun m => m.file) := by
  intro files
  induction files with
  | nil => intro processed; simp [search_name_loop]
  | cons fi rest ih =>
    intro processed
    by_cases hmem : fi.simple_name ∈ processed
    · simpa [search_name_loop, hmem] using ih processed
    · simp only [search_name_loop, if_neg hmem]
      cases hfound : (pyWords t).foldl
          (fun acc w =>
            match lookupDict fi.part_name_index w with
            | some l => acc ++ l
            | none => acc) [] with
      | nil => exact ih processed
      | cons x xs =>
        by_cases hver : strContains
            (pyUpper (dispStr ((fi.dataframe.getD (xs.foldl Nat.min x)
              ⟨none, none, none⟩).part_name))) t = true
        · simp only [hver, if_true]
          have h := ih (fi.simple_name :: processed)
          refine ⟨?_, ?_⟩
          · simp only [List.map_cons, mkMatch_file, List.nodup_cons]
            exact ⟨h.2 fi.simple_name (List.mem_cons_self _ _), h.1⟩
          · intro s hs
            simp only [List.map_cons, mkMatch_file, List.mem_cons, not_or]
            refine ⟨fun hse => hmem (hse ▸ hs), ?_⟩
            exact h.2 s (List.mem_cons_of_mem _ hs)
        · simp only [hver, if_false]
          exact ih processed

/-- Every result emitted by the part-name loop passed the full-term
substring verification against its displayed part-name cell. -/
lemma search_name_loop_sound (db : Dict String) (t : String) :
    ∀ (files : List FileInfo) (processed : List String) (m : MatchRes),
      m ∈ search_name_loop db t files processed →
      strContains (pyUpper m.part_name) t = true := by
  intro files
  induction files with
  | nil => intro processed m hm; simp [search_name_loop] at hm
  | cons fi rest ih =>
    intro processed m hm
    by_cases hmem : fi.simple_name ∈ processed
    · rw [search_name_loop, if_pos hmem] at hm
      exact ih processed m hm
    · rw [search_name_loop, if_neg hmem] at hm
      revert hm
      cases hfound : (pyWords t).foldl
          (fun acc w =>
            match lookupDict fi.part_name_index w with
            | some l => acc ++ l
            | none => acc) [] with
      | nil => exact fun hm => ih processed m hm
      | cons x xs =>
        by_cases hver : strContains
            (pyUpper (dispStr ((fi.dataframe.getD (xs.foldl Nat.min x)
              ⟨none, none, none⟩).part_name))) t = true
        · simp only [hver, if_true, List.mem_cons]
          rintro (rfl | hm)
          · exact hver
          · exact ih (fi.simple_name :: processed) m hm
        · simp only [hver, if_false]
          exact fun hm => ih processed m hm

/-- The branching of the part-number loop never inspects the stock
dictionary: results under two dictionaries agree except on stock. -/
lemma search_pn_loop_stock_indep (db₁ db₂ : Dict String) (t : String) :
    ∀ (files : List FileInfo) (processed : List String),
      (search_pn_loop db₁ t files processed).map eraseStock =
        (search_pn_loop db₂ t files processed).map eraseStock := by
  intro files
  induction files with
  | nil => intro processed; rfl
  | cons fi rest ih =>
    intro processed
    by_cases hmem : fi.simple_name ∈ processed
    · simp only [search_pn_loop, if_pos hmem]; exact ih processed
    · simp only [search_pn_loop, if_neg hmem]
      cases hf : fi.part_number_index.find? (fun p => strContains p.1 t) with
      | none => exact ih processed
      | some pr =>
        obtain ⟨k, l⟩ := pr
        cases l with
        | nil => exact ih processed
        | cons idx tl =>
          simp only [List.map_cons, eraseStock_mkMatch db₁ db₂]
          exact congrArg _ (ih (fi.simple_name :: processed))

/-- The branching of the part-name loop never inspects the stock
dictionary: results under two dictionaries agree except on stock. -/
lemma search_name_loop_stock_indep (db₁ db₂ : Dict String) (t : String) :
    ∀ (files : List FileInfo) (processed : List String),
      (search_name_loop db₁ t files processed).map eraseStock =
        (search_name_loop db₂ t files processed).map eraseStock := by
  intro files
  induction files with
  | nil => intro processed; rfl
  | cons fi rest ih =>
    intro processed
    by_cases hmem : fi.simple_name ∈ processed
    · simp only [search_name_loop, if_pos hmem]; exact ih processed
    · simp only [search_name_loop, if_neg hmem]
      cases hfound : (pyWords t).foldl
          (fun acc w =>
            match lookupDict fi.part_name_index w with
            | some l => acc ++ l
            | none => acc) [] with
      | nil => exact ih processed
      | cons x xs =>
        by_cases hver : strContains
            (pyUpper (dispStr ((fi.dataframe.getD (xs.foldl Nat.min x)
              ⟨none, none, none⟩).part_name))) t = true
        · simp only [hver, if_true, List.map_cons, eraseStock_mkMatch db₁ db₂]
          exact congrArg _ (ih (fi.simple_name :: processed))
        · simp only [hver, if_false]
          exact ih processed

/-! ## Concrete records used in counterexamples and witnesses -/

/-- Workbook `"ABC - Gaskets.xlsx"`, sheet `Sheet1`, one row. -/
def gasketsA : FileInfo :=
  mkFileInfo "/data/ABC - Gaskets.xlsx" "ABC - Gaskets.xlsx" "ABC - Gaskets.xlsx"
    "Sheet1" [⟨some "P1", some "DRIVE MOTOR", some "1"⟩]

/-- Workbook `"XYZ - Gaskets.xlsx"` (same simplified name `"Gaskets"`),
sheet `Sheet1`, one row. -/
def gasketsB : FileInfo :=
  mkFileInfo "/data/XYZ - Gaskets.xlsx" "XYZ - Gaskets.xlsx" "XYZ - Gaskets.xlsx"
    "Sheet1" [⟨some "P2", some "MOTOR OIL", some "2"⟩]

/-- Workbook with a single row whose part name is `MOTOR`. -/
def motorFile : FileInfo :=
  mkFileInfo "/data/A - Motors.xlsx" "A - Motors.xlsx" "A - Motors.xlsx"
    "Sheet1" [⟨some "P1", some "MOTOR", some "1"⟩]

/-! ## Claims -/

/-- C7: for both search modes, a query term that is empty or consists only
of whitespace yields an empty result list, not an error. -/
theorem c7_blank_term_yields_empty (files : List FileInfo) (db : Dict String)
    (term : String) (h : pyTrim term = "") :
    search_part_number files db term = [] ∧ search_part_name files db term = [] := by
  unfold search_part_number search_part_name
  rw [h, pyUpper_empty]
  exact ⟨rfl, rfl⟩

theorem c7_witness :
    pyTrim " " = "" ∧
      (search_part_number [motorFile] [] " " = [] ∧
        search_part_name [motorFile] [] " " = []) :=
  ⟨rfl, c7_blank_term_yields_empty [motorFile] [] " " rfl⟩

/-- C8: for every index state and query term, the results of both search
modes under any two stock dictionaries are identical except for the Stock
annotation field — stock values never alter which rows match. -/
theorem c8_stock_noninterference (files : List FileInfo) (db₁ db₂ : Dict String)
    (term : String) :
    (search_part_number files db₁ term).map eraseStock =
        (search_part_number files db₂ term).map eraseStock ∧
      (search_part_name files db₁ term).map eraseStock =
        (search_part_name files db₂ term).map eraseStock := by
  unfold search_part_number search_part_name
  by_cases h : pyUpper (pyTrim term) = ""
  · simp [h]
  · simp only [if_neg h]
    exact ⟨search_pn_loop_stock_indep db₁ db₂ _ files [],
      search_name_loop_stock_indep db₁ db₂ _ files []⟩

/-- C1 counterexample: two WorkbookRecords sharing the simplified name
`"Gaskets"` each match the part-name query `"MOTOR"` on their own, but
together yield a single Match — part-name search does *not* allow one Match
per WorkbookRecord when records share a simplified file name. -/
theorem c1_counterexample :
    (search_part_name [gasketsB] [] "MOTOR").length = 1 ∧
      (search_part_name [gasketsA] [] "MOTOR").length = 1 ∧
      (search_part_name [gasketsA, gasketsB] [] "MOTOR").length = 1 := by
  refine ⟨rfl, rfl, rfl⟩

/-- C1 (amended): `search_part_name` emits at most one Match per distinct
simplified file name (a verified Match marks the name processed and all
later records with that name are skipped); in particular at most one Match
per WorkbookRecord. -/
theorem c1_amended_one_per_simple_name (files : List FileInfo) (db : Dict String)
    (term : String) :
    ((search_part_name files db term).map (fun m => m.file)).Nodup := by
  unfold search_part_name
  by_cases h : pyUpper (pyTrim term) = ""
  · simp [h]
  · simp only [if_neg h]
    exact (search_name_loop_files_nodup db _ files []).1

/-- C2 counterexample: the term `"MOTO"` is a case-insensitive substring of
the part-name cell `"MOTOR"` of the only row of `motorFile`, yet part-name
search returns no Match, because the word-index narrowing step looks the
query word up as an exact dictionary key. -/
theorem c2_counterexample :
    strContains
        (pyUpper (dispStr ((motorFile.dataframe.getD 0 ⟨none, none, none⟩).part_name)))
        (pyUpper (pyTrim "MOTO")) = true ∧
      search_part_name [motorFile] [] "MOTO" = [] := by
  exact ⟨rfl, rfl⟩

/-- C2 (amended): part-name search is sound — every returned Match's
displayed part-name cell contains the full normalized query term as a
substring — but not complete: the word-index union requires a query word to
equal an indexed word verbatim and only the minimum candidate row is
verified, so a row satisfying the substring predicate can be excluded. -/
theorem c2_amended_part_name_soundness (files : List FileInfo) (db : Dict String)
    (term : String) (m : MatchRes) (hm : m ∈ search_part_name files db term) :
    strContains (pyUpper m.part_name) (pyUpper (pyTrim term)) = true := by
  unfold search_part_name at hm
  by_cases h : pyUpper (pyTrim term) = ""
  · rw [if_pos h] at hm; simp at hm
  · rw [if_neg h] at hm
    exact search_name_loop_sound db _ files [] m hm

theorem c2_witness :
    strContains (pyUpper (mkMatch [] motorFile 0).part_name) (pyUpper (pyTrim "MOTOR")) = true :=
  c2_amended_part_name_soundness [motorFile] [] "MOTOR" (mkMatch [] motorFile 0)
    (by decide)

/-- The part-number loop's per-record success test: some indexed key
contains the term and its row list is non-empty. -/
def pnHasHit (fi : FileInfo) (t : String) : Bool :=
  match fi.part_number_index.find? (fun p => strContains p.1 t) with
  | some (_, _ :: _) => true
  | _ => false

/-- Once a simplified name is marked processed, the part-number loop emits
no further result carrying it. -/
lemma search_pn_loop_countP_processed (db : Dict String) (t : String) :
    ∀ (files : List FileInfo) (processed : List String) (s : String),
      s ∈ processed →
      (search_pn_loop db t files processed).countP (fun m => m.file == s) = 0 := by
  intro files
  induction files with
  | nil => intro processed s _; rfl
  | cons fi rest ih =>
    intro processed s hs
    by_cases hmem : fi.simple_name ∈ processed
    · rw [search_pn_loop, if_pos hmem]; exact ih processed s hs
    · rw [search_pn_loop, if_neg hmem]
      cases hf : fi.part_number_index.find? (fun p => strContains p.1 t) with
      | none => exact ih processed s hs
      | some pr =>
        obtain ⟨k, l⟩ := pr
        cases l with
        | nil => exact ih processed s hs
        | cons idx tl =>
          have hne : fi.simple_name ≠ s := fun he => hmem (he ▸ hs)
          rw [List.countP_cons_of_neg]
          · exact ih (fi.simple_name :: processed) s (List.mem_cons_of_mem _ hs)
          · simpa [mkMatch_file] using hne

/-- If some record in the remaining scan carries simplified name `s` and
has a part-number hit, and `s` is not yet processed, the loop emits exactly
one result with file name `s`. -/
lemma search_pn_loop_countP_hit (db : Dict String) (t : String) :
    ∀ (files : List FileInfo) (processed : List String) (s : String),
      s ∉ processed →
      (∃ fi ∈ files, fi.simple_name = s ∧ pnHasHit fi t = true) →
      (search_pn_loop db t files processed).countP (fun m => m.file == s) = 1 := by
  intro files
  induction files with
  | nil => intro processed s _ hex; simp at hex
  | cons fi rest ih =>
    intro processed s hs hex
    by_cases hmem : fi.simple_name ∈ processed
    · rw [search_pn_loop, if_pos hmem]
      refine ih processed s hs ?_
      obtain ⟨fi', hfi', hname, hhit⟩ := hex
      rcases List.mem_cons.1 hfi' with rfl | hfi'
      · exact absurd (hname ▸ hmem) hs
      · exact ⟨fi', hfi', hname, hhit⟩
    · rw [search_pn_loop, if_neg hmem]
      cases hf : fi.part_number_index.find? (fun p => strContains p.1 t) with
      | none =>
        refine ih processed s hs ?_
        obtain ⟨fi', hfi', hname, hhit⟩ := hex
        rcases List.mem_cons.1 hfi' with rfl | hfi'
        · rw [pnHasHit, hf] at hhit; exact absurd hhit (by simp)
        · exact ⟨fi', hfi', hname, hhit⟩
      | some pr =>
        obtain ⟨k, l⟩ := pr
        cases l with
        | nil =>
          refine ih processed s hs ?_
          obtain ⟨fi', hfi', hname, hhit⟩ := hex
          rcases List.mem_cons.1 hfi' with rfl | hfi'
          · rw [pnHasHit, hf] at hhit; exact absurd hhit (by simp)
          · exact ⟨fi', hfi', hname, hhit⟩
        | cons idx tl =>
          by_cases hname : fi.simple_name = s
          · rw [List.countP_cons_of_pos]
            · rw [search_pn_loop_countP_processed db t rest (fi.simple_name :: processed) s
                (hname ▸ List.mem_cons_self _ _)]
            · simpa [mkMatch_file] using hname
          · rw [List.countP_cons_of_neg]
            · refine ih (fi.simple_name :: processed) s ?_ ?_
              · intro hc
                rcases List.mem_cons.1 hc with rfl | hc
                · exact hname rfl
                · exact hs hc
              · obtain ⟨fi', hfi', hname', hhit⟩ := hex
                rcases List.mem_cons.1 hfi' with rfl | hfi'
                · exact absurd hname' hname
                · exact ⟨fi', hfi', hname', hhit⟩
            · simpa [mkMatch_file] using hname

/-- C3: part-number search returns at most one Match per distinct
simplified file name, and whenever some record carrying a given simplified
name has a part-number hit for a non-blank term, exactly one Match with
that file name is returned — even across multiple sheets or files sharing
the name. -/
theorem c3_part_number_one_per_file_name (files : List FileInfo)
    (db : Dict String) (term s : String) :
    ((search_part_number files db term).map (fun m => m.file)).Nodup ∧
      (pyUpper (pyTrim term) ≠ "" →
        (∃ fi ∈ files, fi.simple_name = s ∧
            pnHasHit fi (pyUpper (pyTrim term)) = true) →
        (search_part_number files db term).countP (fun m => m.file == s) = 1) := by
  constructor
  · unfold search_part_number
    by_cases h : pyUpper (pyTrim term) = ""
    · simp [h]
    · simp only [if_neg h]
      exact (search_pn_loop_files_nodup db _ files []).1
  · intro ht hex
    unfold search_part_number
    simp only [if_neg ht]
    exact search_pn_loop_countP_hit db _ files [] s (by simp) hex

theorem c3_witness :
    pyUpper (pyTrim "p") ≠ "" ∧
      (search_part_number [gasketsA, gasketsB] [] "p").countP
        (fun m => m.file == "Gaskets") = 1 :=
  ⟨by decide,
    (c3_part_number_one_per_file_name [gasketsA, gasketsB] [] "p" "Gaskets").2
      (by decide) ⟨gasketsA, by decide, by decide, by decide⟩⟩

/-- C6 counterexample: `"N/A"` is storable as a normalized stock key (it is
not blacklisted and survives cleaning), yet looking it up returns the
absent-key default `"0"`, not the stored value, because the lookup
special-cases the `"N/A"` sentinel. -/
theorem c6_counterexample :
    load_stock_database [[(some "N/A", some "5")]] = [("N/A", "5")] ∧
      get_stock_from_database [("N/A", "5")] "N/A" = "0" ∧ "0" ≠ "5" :=
  ⟨rfl, rfl, by decide⟩

/-- C6 (amended): `get_stock_from_database` performs exact match only on
the normalized (trimmed, uppercased) key — any term whose normalization is
a stored key returns the stored value, except the reserved query strings
`""` and `"N/A"`, which always return `"0"`; a term whose normalization is
absent returns `"0"`; no partial matching is performed. -/
theorem c6_amended_exact_lookup (db : Dict String) (term v : String) :
    (term ≠ "" → term ≠ "N/A" →
      lookupDict db (pyUpper (pyTrim term)) = some v →
      get_stock_from_database db term = v) ∧
    (lookupDict db (pyUpper (pyTrim term)) = none →
      get_stock_from_database db term = "0") := by
  constructor
  · intro h1 h2 hl
    have hdb : db.isEmpty = false := by
      cases db with
      | nil => simp [lookupDict] at hl
      | cons p rest => rfl
    simp [get_stock_from_database, hdb, h1, h2, hl]
  · intro hl
    by_cases hdb : db.isEmpty
    · simp [get_stock_from_database, hdb]
    · by_cases h1 : term = ""
      · simp [get_stock_from_database, hdb, h1]
      · by_cases h2 : term = "N/A"
        · simp [get_stock_from_database, hdb, h1, h2]
        · simp [get_stock_from_database, hdb, h1, h2, hl]

theorem c6_witness :
    get_stock_from_database
        (load_stock_database [[(some "000001.WG9160580508", some "42")]])
        "wg9160580508 " = "42" ∧
      get_stock_from_database
        (load_stock_database [[(some "000001.WG9160580508", some "42")]])
        "UNKNOWN" = "0" :=
  ⟨(c6_amended_exact_lookup
      (load_stock_database [[(some "000001.WG9160580508", some "42")]])
      "wg9160580508 " "42").1 (by decide) (by decide) (by decide),
    (c6_amended_exact_lookup
      (load_stock_database [[(some "000001.WG9160580508", some "42")]])
      "UNKNOWN" "0").2 (by decide)⟩

/-- C10 counterexample: a retained stock row whose stock cell is present
but whitespace-only is stored with the empty string (the `'0'` default only
applies to missing cells, and strip runs after it), so lookup returns `""`,
distinguishable from an absent key's `"0"`. -/
theorem c10_counterexample :
    load_stock_database [[(some "ABC-1", some " ")]] = [("ABC-1", "")] ∧
      get_stock_from_database [("ABC-1", "")] "ABC-1" = "" ∧ ("" : String) ≠ "0" :=
  ⟨rfl, rfl, by decide⟩

/-- C10 (amended): a retained stock row stores the trimmed stock cell with
`"0"` substituted only for a *missing* cell: a missing cell is stored as
`"0"` (indistinguishable from an absent key at lookup), while a present but
blank cell is stored as the empty string. -/
theorem c10_amended_stored_stock_value (r : StockRow) (kv : String × String)
    (h : clean_stock_row r = some kv) :
    kv.2 = pyTrim (r.2.getD "0") := by
  simp only [clean_stock_row] at h
  split at h
  · exact absurd h (by simp)
  · split at h
    · exact absurd h (by simp)
    · split at h
      · split at h
        · exact absurd h (by simp)
        · injection h with h'
          rw [← h']
      · split at h
        · exact absurd h (by simp)
        · injection h with h'
          rw [← h']

theorem c10_witness :
    (("ABC-1", "0") : String × String).2 = pyTrim ((none : Option String).getD "0") ∧
      (("ABC-1", "") : String × String).2 = pyTrim ((some " " : Option String).getD "0") :=
  ⟨c10_amended_stored_stock_value (some "ABC-1", none) ("ABC-1", "0") (by decide),
    c10_amended_stored_stock_value (some "ABC-1", some " ") ("ABC-1", "") (by decide)⟩

/-- A session state holding a previously built index of one record. -/
def c4_prior_state : SessionState :=
  { excel_files := [gasketsA]
    stock_database := []
    last_index_time := some 0
    loaded_files_count := 1
    last_file_count := 1 }

/-- C4 counterexample: with a prior build of one file, an empty discovery
(count 0 ≠ recorded count 1) does *not* replace the index — the stale
record survives and only the recorded count is reset — contradicting both
"replaced wholesale whenever the discovered file count differs" and "an
empty data root yields an IndexState with zero records". -/
theorem c4_counterexample :
    ([] : List (List FileInfo)).length ≠ c4_prior_state.last_file_count ∧
      (auto_load_excel_files c4_prior_state [] [] 7).excel_files = [gasketsA] ∧
      ([gasketsA] : List FileInfo) ≠ [] :=
  ⟨by decide, rfl, by simp⟩

/-- C4 (amended): when discovery finds no files, the state is not rebuilt —
only the recorded file count is reset to 0 and the records keep their prior
value (so at first start an empty data root yields zero records and no
error); when discovery finds at least one file, the state is replaced
wholesale iff the discovered count differs from the recorded count or no
successful build has yet occurred, and is left untouched otherwise. -/
theorem c4_amended_rebuild_rule (st : SessionState)
    (discovered : List (List FileInfo)) (ns : Dict String) (now : Nat) :
    (discovered = [] →
      auto_load_excel_files st discovered ns now = { st with last_file_count := 0 }) ∧
    (discovered ≠ [] →
      (discovered.length ≠ st.last_file_count ∨ st.last_index_time = none) →
      auto_load_excel_files st discovered ns now =
        { excel_files := discovered.flatten
          stock_database := ns
          last_index_time := some now
          loaded_files_count := discovered.flatten.length
          last_file_count := discovered.length }) ∧
    (discovered ≠ [] → discovered.length = st.last_file_count →
      st.last_index_time ≠ none →
      auto_load_excel_files st discovered ns now = st) ∧
    (auto_load_excel_files initialSessionState [] ns now).excel_files = [] := by
  refine ⟨?_, ?_, ?_, rfl⟩
  · rintro rfl; rfl
  · intro hne hcond
    have hemp : discovered.isEmpty = false := by
      cases discovered with
      | nil => exact absurd rfl hne
      | cons d rest => rfl
    simp only [auto_load_excel_files, hemp, Bool.false_eq_true, if_false]
    rw [if_pos hcond]
  · intro hne hcount htime
    have hemp : discovered.isEmpty = false := by
      cases discovered with
      | nil => exact absurd rfl hne
      | cons d rest => rfl
    simp only [auto_load_excel_files, hemp, Bool.false_eq_true, if_false]
    rw [if_neg]
    push_neg
    exact ⟨hcount, htime⟩

theorem c4_witness :
    auto_load_excel_files c4_prior_state [] [] 7 =
        { c4_prior_state with last_file_count := 0 } ∧
      auto_load_excel_files initialSessionState [[gasketsA]] [] 7 =
        { excel_files := [[gasketsA]].flatten
          stock_database := []
          last_index_time := some 7
          loaded_files_count := [[gasketsA]].flatten.length
          last_file_count := [[gasketsA]].length } ∧
      auto_load_excel_files c4_prior_state [[gasketsB]] [] 9 = c4_prior_state :=
  ⟨(c4_amended_rebuild_rule c4_prior_state [] [] 7).1 rfl,
    (c4_amended_rebuild_rule initialSessionState [[gasketsA]] [] 7).2.1
      (by simp) (Or.inr rfl),
    (c4_amended_rebuild_rule c4_prior_state [[gasketsB]] [] 9).2.2.1
      (by simp) (by decide) (by decide)⟩

/-- Transport a per-entry invariant across one `dictAppend`: entries keep a
property `Q` if every old entry satisfying `P` does, appending `i` to the
touched key's list preserves it, and the freshly inserted entry has it. -/
lemma dictAppend_forall {P Q : String × List Nat → Prop}
    (d : Dict (List Nat)) (k : String) (i : Nat)
    (hd : ∀ p ∈ d, P p)
    (hPQ : ∀ p, P p → Q p)
    (happ : ∀ l, P (k, l) → Q (k, l ++ [i]))
    (hnew : Q (k, [i])) :
    ∀ p ∈ dictAppend d k i, Q p := by
  intro p hp
  unfold dictAppend at hp
  split at hp
  · obtain ⟨q, hq, hqe⟩ := List.mem_map.1 hp
    obtain ⟨a, b⟩ := q
    by_cases hk : a = k
    · subst hk
      rw [if_pos (by simp)] at hqe
      subst hqe
      exact happ b (hd (a, b) hq)
    · rw [if_neg (by simpa using hk)] at hqe
      subst hqe
      exact hPQ (a, b) (hd (a, b) hq)
  · rcases List.mem_append.1 hp with hmem | hmem
    · exact hPQ p (hd p hmem)
    · rw [List.mem_singleton] at hmem
      subst hmem
      exact hnew

/-- Transport a per-entry invariant across the word-index fold of one row:
every word of the row appends the same position `i`. -/
lemma foldl_words_forall {Q : String × List Nat → Prop}
    (i : Nat)
    (happ : ∀ k l, Q (k, l) → Q (k, l ++ [i]))
    (hnew : ∀ k, Q (k, [i])) :
    ∀ (ws : List String) (d : Dict (List Nat)),
      (∀ p ∈ d, Q p) →
      ∀ p ∈ ws.foldl (fun d w => if w.length > 2 then dictAppend d w i else d) d, Q p := by
  intro ws
  induction ws with
  | nil => intro d hd; exact hd
  | cons w ws ih =>
    intro d hd
    rw [List.foldl_cons]
    refine ih _ ?_
    by_cases hw : w.length > 2
    · rw [if_pos hw]
      exact dictAppend_forall d w i hd (fun p hp => hp) (fun l hl => happ w l hl)
        (hnew w)
    · rw [if_neg hw]
      exact hd

/-- The default row used for out-of-range `getD` reads. -/
def emptyRow : Row := ⟨none, none, none⟩

/-- Invariant of the index-building loop over the remaining rows `rs`
starting at absolute position `i`: part-number lists stay non-empty,
strictly sorted, bounded by the current position, and hold only positions
whose normalized part-number cell equals their key; part-name word lists
stay non-empty, sorted and bounded. -/
lemma buildIndexes_invariant (rows₀ : List Row) :
    ∀ (rs : List Row) (i : Nat) (pn nm : Dict (List Nat)),
      (∀ j, rs.getD j emptyRow = rows₀.getD (i + j) emptyRow) →
      (∀ p ∈ pn, p.2 ≠ [] ∧ List.Sorted (· < ·) p.2 ∧
        ∀ x ∈ p.2, x < i ∧
          normCell ((rows₀.getD x emptyRow).part_number) = p.1) →
      (∀ p ∈ nm, p.2 ≠ [] ∧ List.Sorted (· ≤ ·) p.2 ∧ ∀ x ∈ p.2, x < i) →
      (∀ p ∈ (buildIndexes rs i (pn, nm)).1, p.2 ≠ [] ∧ List.Sorted (· < ·) p.2 ∧
        ∀ x ∈ p.2, normCell ((rows₀.getD x emptyRow).part_number) = p.1) ∧
      (∀ p ∈ (buildIndexes rs i (pn, nm)).2, p.2 ≠ [] ∧ List.Sorted (· ≤ ·) p.2) := by
  intro rs
  induction rs with
  | nil =>
    intro i pn nm _ hpn hnm
    refine ⟨fun p hp => ?_, fun p hp => ?_⟩
    · obtain ⟨h1, h2, h3⟩ := hpn p hp
      exact ⟨h1, h2, fun x hx => (h3 x hx).2⟩
    · obtain ⟨h1, h2, _⟩ := hnm p hp
      exact ⟨h1, h2⟩
  | cons r rs ih =>
    intro i pn nm hrs hpn hnm
    have hr : r = rows₀.getD i emptyRow := by
      have := hrs 0
      simpa using this
    have hrs' : ∀ j, rs.getD j emptyRow = rows₀.getD (i + 1 + j) emptyRow := by
      intro j
      have := hrs (j + 1)
      simp only [List.getD_cons_succ] at this
      rw [this]
      congr 1
      omega
    show (∀ p ∈ (buildIndexes (r :: rs) i (pn, nm)).1, _) ∧ _
    rw [buildIndexes]
    apply ih (i + 1) _ _ hrs'
    · -- part-number dictionary invariant advances to i + 1
      by_cases hpnn : normCell r.part_number ≠ ""
      · rw [if_pos hpnn]
        refine dictAppend_forall pn _ i hpn ?_ ?_ ?_
        · rintro p ⟨h1, h2, h3⟩
          exact ⟨h1, h2, fun x hx => ⟨Nat.lt_succ_of_lt (h3 x hx).1, (h3 x hx).2⟩⟩
        · rintro l ⟨h1, h2, h3⟩
          refine ⟨by simp, ?_, ?_⟩
          · refine List.pairwise_append.2 ⟨h2, List.pairwise_singleton _ _, ?_⟩
            intro a ha b hb
            rw [List.mem_singleton] at hb
            subst hb
            exact (h3 a ha).1
          · intro x hx
            rcases List.mem_append.1 hx with hx | hx
            · exact ⟨Nat.lt_succ_of_lt (h3 x hx).1, (h3 x hx).2⟩
            · rw [List.mem_singleton] at hx
              exact ⟨by omega, by rw [hx, ← hr]⟩
        · refine ⟨by simp, List.pairwise_singleton _ _, ?_⟩
          intro x hx
          rw [List.mem_singleton] at hx
          exact ⟨by omega, by rw [hx, ← hr]⟩
      · rw [if_neg hpnn]
        rintro p hp
        obtain ⟨h1, h2, h3⟩ := hpn p hp
        exact ⟨h1, h2, fun x hx => ⟨Nat.lt_succ_of_lt (h3 x hx).1, (h3 x hx).2⟩⟩
    · -- part-name word dictionary invariant advances to i + 1
      have step : ∀ (d : Dict (List Nat)),
          (∀ p ∈ d, p.2 ≠ [] ∧ List.Sorted (· ≤ ·) p.2 ∧ ∀ x ∈ p.2, x ≤ i) →
          ∀ p ∈ (if normCell r.part_name ≠ "" then
              (pyWords (normCell r.part_name)).foldl
                (fun d w => if w.length > 2 then dictAppend d w i else d) d
            else d),
            p.2 ≠ [] ∧ List.Sorted (· ≤ ·) p.2 ∧ ∀ x ∈ p.2, x ≤ i := by
        intro d hd
        by_cases hn : normCell r.part_name ≠ ""
        · rw [if_pos hn]
          refine foldl_words_forall i ?_ ?_ _ d hd
          · rintro k l ⟨h1, h2, h3⟩
            refine ⟨by simp, ?_, ?_⟩
            · refine List.pairwise_append.2 ⟨h2, List.pairwise_singleton _ _, ?_⟩
              intro a ha b hb
              rw [List.mem_singleton] at hb
              subst hb
              exact h3 a ha
            · intro x hx
              rcases List.mem_append.1 hx with hx | hx
              · exact h3 x hx
              · rw [List.mem_singleton] at hx
                exact Nat.le_of_eq hx
          · intro k
            refine ⟨by simp, List.pairwise_singleton _ _, ?_⟩
            intro x hx
            rw [List.mem_singleton] at hx
            exact Nat.le_of_eq hx
        · rw [if_neg hn]
          exact hd
      intro p hp
      have hd0 : ∀ p ∈ nm, p.2 ≠ [] ∧ List.Sorted (· ≤ ·) p.2 ∧ ∀ x ∈ p.2, x ≤ i := by
        intro p hp
        obtain ⟨h1, h2, h3⟩ := hnm p hp
        exact ⟨h1, h2, fun x hx => Nat.le_of_lt (h3 x hx)⟩
      obtain ⟨h1, h2, h3⟩ := step nm hd0 p hp
      exact ⟨h1, h2, fun x hx => Nat.lt_succ_of_le (h3 x hx)⟩

/-- In a `≤`-sorted list the head is a lower bound of every element. -/
lemma sorted_head_le {l : List Nat} (hs : List.Sorted (· ≤ ·) l) :
    ∀ h ∈ l.head?, ∀ x ∈ l, h ≤ x := by
  cases l with
  | nil => intro h hh; exact absurd hh (by simp)
  | cons a t =>
    intro h hh x hx
    have ha : h = a := by
      simpa using hh.symm
    subst ha
    rcases List.mem_cons.1 hx with rfl | hx
    · exact Nat.le_refl x
    · exact List.rel_of_sorted_cons hs x hx

/-- Unfolding of one step of the index-building loop. -/
lemma buildIndexes_cons (r : Row) (rs : List Row) (i : Nat)
    (pn nm : Dict (List Nat)) :
    buildIndexes (r :: rs) i (pn, nm) =
      buildIndexes rs (i + 1)
        (if normCell r.part_number ≠ "" then
            dictAppend pn (normCell r.part_number) i
          else pn,
         if normCell r.part_name ≠ "" then
            (pyWords (normCell r.part_name)).foldl
              (fun d w => if w.length > 2 then dictAppend d w i else d) nm
          else nm) := rfl

/-- Exhaustive description of a `dictAppend` result entry: an untouched
entry with a different key, the touched key's entry with `i` appended, or a
fresh entry for a previously absent key. -/
lemma dictAppend_cases (d : Dict (List Nat)) (k : String) (i : Nat) :
    ∀ p ∈ dictAppend d k i,
      (p ∈ d ∧ p.1 ≠ k) ∨ (∃ l, (k, l) ∈ d ∧ p = (k, l ++ [i])) ∨
        (p = (k, [i]) ∧ ∀ q ∈ d, q.1 ≠ k) := by
  intro p hp
  unfold dictAppend at hp
  split at hp
  case isTrue hany =>
    obtain ⟨q, hq, hqe⟩ := List.mem_map.1 hp
    obtain ⟨a, b⟩ := q
    by_cases hk : a = k
    · subst hk
      rw [if_pos (by simp)] at hqe
      subst hqe
      exact Or.inr (Or.inl ⟨b, hq, rfl⟩)
    · rw [if_neg (by simpa using hk)] at hqe
      subst hqe
      exact Or.inl ⟨hq, hk⟩
  case isFalse hany =>
    rcases List.mem_append.1 hp with hmem | hmem
    · refine Or.inl ⟨hmem, fun he => hany ?_⟩
      exact List.any_eq_true.2 ⟨p, hmem, by simp [he]⟩
    · rw [List.mem_singleton] at hmem
      subst hmem
      refine Or.inr (Or.inr ⟨rfl, fun q hq he => hany ?_⟩)
      exact List.any_eq_true.2 ⟨q, hq, by simp [he]⟩

/-- `dictAppend` never removes a key. -/
lemma dictAppend_preserves_key (d : Dict (List Nat)) (k : String) (i : Nat)
    (q : String × List Nat) (hq : q ∈ d) :
    ∃ p ∈ dictAppend d k i, p.1 = q.1 := by
  by_cases hk : (q.1 == k) = true
  · have hany : d.any (fun p => p.1 == k) = true := List.any_eq_true.2 ⟨q, hq, hk⟩
    refine ⟨(q.1, q.2 ++ [i]), ?_, rfl⟩
    rw [dictAppend, if_pos hany]
    exact List.mem_map.2 ⟨q, hq, by rw [if_pos hk]⟩
  · by_cases hany : d.any (fun p => p.1 == k) = true
    · refine ⟨q, ?_, rfl⟩
      rw [dictAppend, if_pos hany]
      exact List.mem_map.2 ⟨q, hq, by rw [if_neg hk]⟩
    · refine ⟨q, ?_, rfl⟩
      rw [dictAppend, if_neg hany]
      exact List.mem_append.2 (Or.inl hq)

/-- After `dictAppend d k i` the key `k` is present with `i` in its list. -/
lemma dictAppend_has_key (d : Dict (List Nat)) (k : String) (i : Nat) :
    ∃ p ∈ dictAppend d k i, p.1 = k ∧ i ∈ p.2 := by
  by_cases hany : d.any (fun p => p.1 == k) = true
  · obtain ⟨q, hq, hqk⟩ := List.any_eq_true.1 hany
    have hqk' : q.1 = k := by simpa using hqk
    refine ⟨(q.1, q.2 ++ [i]), ?_, hqk', by simp⟩
    rw [dictAppend, if_pos hany]
    exact List.mem_map.2 ⟨q, hq, by rw [if_pos hqk]⟩
  · refine ⟨(k, [i]), ?_, rfl, by simp⟩
    rw [dictAppend, if_neg hany]
    exact List.mem_append.2 (Or.inr (by simp))

/-- Completeness invariant of the index-building loop for the part-number
dictionary: its keys are non-empty, every already-processed row position
whose normalized part-number cell equals an entry's key is in that entry's
list, and every already-processed row with a non-empty normalized
part-number cell has its key present. -/
lemma buildIndexes_pn_complete (rows₀ : List Row) :
    ∀ (rs : List Row) (i : Nat) (pn nm : Dict (List Nat)),
      (∀ j, rs.getD j emptyRow = rows₀.getD (i + j) emptyRow) →
      (∀ p ∈ pn, p.1 ≠ "") →
      (∀ p ∈ pn, ∀ x, x < i →
        normCell ((rows₀.getD x emptyRow).part_number) = p.1 → x ∈ p.2) →
      (∀ x, x < i → normCell ((rows₀.getD x emptyRow).part_number) ≠ "" →
        ∃ p ∈ pn, p.1 = normCell ((rows₀.getD x emptyRow).part_number)) →
      (∀ p ∈ (buildIndexes rs i (pn, nm)).1, p.1 ≠ "") ∧
      (∀ p ∈ (buildIndexes rs i (pn, nm)).1, ∀ x, x < i + rs.length →
        normCell ((rows₀.getD x emptyRow).part_number) = p.1 → x ∈ p.2) ∧
      (∀ x, x < i + rs.length →
        normCell ((rows₀.getD x emptyRow).part_number) ≠ "" →
        ∃ p ∈ (buildIndexes rs i (pn, nm)).1,
          p.1 = normCell ((rows₀.getD x emptyRow).part_number)) := by
  intro rs
  induction rs with
  | nil =>
    intro i pn nm _ hc ha hb
    simp only [buildIndexes, List.length_nil, Nat.add_zero]
    exact ⟨hc, ha, hb⟩
  | cons r rs ih =>
    intro i pn nm hrs hc ha hb
    have hr : r = rows₀.getD i emptyRow := by simpa using hrs 0
    have hrs' : ∀ j, rs.getD j emptyRow = rows₀.getD (i + 1 + j) emptyRow := by
      intro j
      have := hrs (j + 1)
      simp only [List.getD_cons_succ] at this
      rw [this]
      congr 1
      omega
    rw [buildIndexes_cons]
    by_cases hk : normCell r.part_number = ""
    · -- the row contributes nothing to the part-number dictionary
      have hPN : (if normCell r.part_number ≠ "" then
          dictAppend pn (normCell r.part_number) i else pn) = pn := by
        rw [if_neg (not_not_intro hk)]
      rw [hPN]
      have ha' : ∀ p ∈ pn, ∀ x, x < i + 1 →
          normCell ((rows₀.getD x emptyRow).part_number) = p.1 → x ∈ p.2 := by
        intro p hp x hx hcell
        rcases Nat.lt_succ_iff_lt_or_eq.1 hx with hx | rfl
        · exact ha p hp x hx hcell
        · rw [← hr, hk] at hcell
          exact absurd hcell.symm (hc p hp)
      have hb' : ∀ x, x < i + 1 →
          normCell ((rows₀.getD x emptyRow).part_number) ≠ "" →
          ∃ p ∈ pn, p.1 = normCell ((rows₀.getD x emptyRow).part_number) := by
        intro x hx hne
        rcases Nat.lt_succ_iff_lt_or_eq.1 hx with hx | rfl
        · exact hb x hx hne
        · rw [← hr, hk] at hne
          exact absurd rfl hne
      obtain ⟨R1, R2, R3⟩ := ih (i + 1) pn _ hrs' hc ha' hb'
      refine ⟨R1, ?_, ?_⟩
      · intro p hp x hx hcell
        refine R2 p hp x ?_ hcell
        simp only [List.length_cons] at hx
        omega
      · intro x hx hne
        refine R3 x ?_ hne
        simp only [List.length_cons] at hx
        omega
    · -- the row's position is appended under its normalized part number
      have hPN : (if normCell r.part_number ≠ "" then
          dictAppend pn (normCell r.part_number) i else pn) =
          dictAppend pn (normCell r.part_number) i := by
        rw [if_pos hk]
      rw [hPN]
      have hcell_i : normCell ((rows₀.getD i emptyRow).part_number) =
          normCell r.part_number := by rw [← hr]
      have hc' : ∀ p ∈ dictAppend pn (normCell r.part_number) i, p.1 ≠ "" := by
        intro p hp
        rcases dictAppend_cases pn (normCell r.part_number) i p hp with
          ⟨hpd, _⟩ | ⟨l, _, rfl⟩ | ⟨rfl, _⟩
        · exact hc p hpd
        · exact hk
        · exact hk
      have ha' : ∀ p ∈ dictAppend pn (normCell r.part_number) i, ∀ x, x < i + 1 →
          normCell ((rows₀.getD x emptyRow).part_number) = p.1 → x ∈ p.2 := by
        intro p hp x hx hcell
        rcases dictAppend_cases pn (normCell r.part_number) i p hp with
          ⟨hpd, hpne⟩ | ⟨l, hld, rfl⟩ | ⟨rfl, hnone⟩
        · rcases Nat.lt_succ_iff_lt_or_eq.1 hx with hx | rfl
          · exact ha p hpd x hx hcell
          · rw [hcell_i] at hcell
            exact absurd hcell.symm hpne
        · rcases Nat.lt_succ_iff_lt_or_eq.1 hx with hx | rfl
          · exact List.mem_append_left _ (ha (normCell r.part_number, l) hld x hx hcell)
          · simp
        · rcases Nat.lt_succ_iff_lt_or_eq.1 hx with hx | rfl
          · obtain ⟨q, hq, hqk⟩ := hb x hx (by rw [hcell]; exact hk)
            exact absurd (hqk.trans hcell) (hnone q hq)
          · simp
      have hb' : ∀ x, x < i + 1 →
          normCell ((rows₀.getD x emptyRow).part_number) ≠ "" →
          ∃ p ∈ dictAppend pn (normCell r.part_number) i,
            p.1 = normCell ((rows₀.getD x emptyRow).part_number) := by
        intro x hx hne
        rcases Nat.lt_succ_iff_lt_or_eq.1 hx with hx | rfl
        · obtain ⟨q, hq, hqk⟩ := hb x hx hne
          obtain ⟨p, hp, hpk⟩ :=
            dictAppend_preserves_key pn (normCell r.part_number) i q hq
          exact ⟨p, hp, hpk.trans hqk⟩
        · obtain ⟨p, hp, hpk, _⟩ := dictAppend_has_key pn (normCell r.part_number) x
          exact ⟨p, hp, by rw [hpk, hcell_i]⟩
      obtain ⟨R1, R2, R3⟩ :=
        ih (i + 1) (dictAppend pn (normCell r.part_number) i) _ hrs' hc' ha' hb'
      refine ⟨R1, ?_, ?_⟩
      · intro p hp x hx hcell
        refine R2 p hp x ?_ hcell
        simp only [List.length_cons] at hx
        omega
      · intro x hx hne
        refine R3 x ?_ hne
        simp only [List.length_cons] at hx
        omega

/-- C9 counterexample: a part name repeating a word (`"MOTOR MOTOR"`)
appends the same row position twice to that word's list, so the
row-position list `[0, 0]` of the built word index is *not* strictly
increasing — a row can contribute the same token more than once. -/
theorem c9_counterexample :
    (buildIndexes [⟨some "X", some "MOTOR MOTOR", none⟩] 0 ([], [])).2 =
        [("MOTOR", [0, 0])] ∧
      ¬ List.Sorted (· < ·) ([0, 0] : List Nat) :=
  ⟨rfl, by decide⟩

/-- C9 (amended): in every built sheet index, the part-number lists are
non-empty and strictly increasing and hold *exactly* the positions whose
normalized part-number cell equals their key (soundness: every listed
position matches; completeness: every matching position of the dataset is
listed), while the part-name word lists are non-empty and non-decreasing
(a row may repeat a token); in both indexes the first element of a list is
the smallest row position it holds, and hence — by completeness — the first
element of a part-number key's list is the earliest row of the whole
dataset whose cell has that exact normalized value. -/
theorem c9_amended_index_lists_sorted (rows : List Row) :
    (∀ p ∈ (buildIndexes rows 0 ([], [])).1, p.2 ≠ [] ∧
        List.Sorted (· < ·) p.2 ∧
        ∀ x ∈ p.2, normCell ((rows.getD x emptyRow).part_number) = p.1) ∧
      (∀ p ∈ (buildIndexes rows 0 ([], [])).2, p.2 ≠ [] ∧
        List.Sorted (· ≤ ·) p.2) ∧
      (∀ p ∈ (buildIndexes rows 0 ([], [])).1, ∀ h ∈ p.2.head?, ∀ x ∈ p.2, h ≤ x) ∧
      (∀ p ∈ (buildIndexes rows 0 ([], [])).2, ∀ h ∈ p.2.head?, ∀ x ∈ p.2, h ≤ x) ∧
      (∀ p ∈ (buildIndexes rows 0 ([], [])).1, ∀ x, x < rows.length →
        normCell ((rows.getD x emptyRow).part_number) = p.1 → x ∈ p.2) ∧
      (∀ p ∈ (buildIndexes rows 0 ([], [])).1, ∀ h ∈ p.2.head?, ∀ x, x < rows.length →
        normCell ((rows.getD x emptyRow).part_number) = p.1 → h ≤ x) := by
  have hmain := buildIndexes_invariant rows rows 0 [] []
    (fun j => by simp) (by simp) (by simp)
  have hcomp := buildIndexes_pn_complete rows rows 0 [] []
    (fun j => by simp) (by simp) (by simp) (by simp)
  have hheadpn : ∀ p ∈ (buildIndexes rows 0 ([], [])).1,
      ∀ h ∈ p.2.head?, ∀ x ∈ p.2, h ≤ x :=
    fun p hp => sorted_head_le ((hmain.1 p hp).2.1.le_of_lt)
  have hcompl : ∀ p ∈ (buildIndexes rows 0 ([], [])).1, ∀ x, x < rows.length →
      normCell ((rows.getD x emptyRow).part_number) = p.1 → x ∈ p.2 := by
    intro p hp x hx hcell
    exact hcomp.2.1 p hp x (by simpa using hx) hcell
  refine ⟨hmain.1, hmain.2, hheadpn, fun p hp => sorted_head_le (hmain.2 p hp).2,
    hcompl, ?_⟩
  intro p hp h hh x hx hcell
  exact hheadpn p hp h hh x (hcompl p hp x hx hcell)

theorem c9_witness :
    ([0, 0] : List Nat) ≠ [] ∧ List.Sorted (· ≤ ·) ([0, 0] : List Nat) ∧
      (0 : Nat) ≤ 0 ∧ (0 : Nat) ∈ ([0] : List Nat) := by
  have h := c9_amended_index_lists_sorted [⟨some "X", some "MOTOR MOTOR", none⟩]
  have h2 := h.2.1 ("MOTOR", [0, 0]) (by decide)
  have h4 := h.2.2.2.2.1 ("X", [0]) (by decide) 0 (by decide) (by decide)
  have h5 := h.2.2.2.2.2 ("X", [0]) (by decide) 0 rfl 0 (by decide) (by decide)
  exact ⟨h2.1, h2.2, h5, h4⟩

/-! ## Decimal rendering facts for the fingerprint -/

/-- Numeric value of a decimal digit character. -/
def charVal (c : Char) : Nat := c.toNat - 48

/-- Left-to-right decimal value of a character list, with accumulator. -/
def lval : List Char → Nat → Nat
  | [], a => a
  | c :: cs, a => lval cs (10 * a + charVal c)

lemma charVal_digitChar : ∀ m : Nat, m < 10 → charVal (Nat.digitChar m) = m := by
  decide

lemma digitChar_ne_underscore (m : Nat) : Nat.digitChar m ≠ '_' := by
  by_cases hm : m < 16
  · revert hm
    revert m
    decide
  · have hstar : Nat.digitChar m = '*' := by
      unfold Nat.digitChar
      simp only [if_neg (show ¬ m = 0 by omega), if_neg (show ¬ m = 1 by omega),
        if_neg (show ¬ m = 2 by omega), if_neg (show ¬ m = 3 by omega),
        if_neg (show ¬ m = 4 by omega), if_neg (show ¬ m = 5 by omega),
        if_neg (show ¬ m = 6 by omega), if_neg (show ¬ m = 7 by omega),
        if_neg (show ¬ m = 8 by omega), if_neg (show ¬ m = 9 by omega),
        if_neg (show ¬ m = 10 by omega), if_neg (show ¬ m = 11 by omega),
        if_neg (show ¬ m = 12 by omega), if_neg (show ¬ m = 13 by omega),
        if_neg (show ¬ m = 14 by omega), if_neg (show ¬ m = 15 by omega)]
    rw [hstar]
    decide

lemma toDigitsCore_succ_zero (f n : Nat) (ds : List Char) (h0 : n / 10 = 0) :
    Nat.toDigitsCore 10 (f + 1) n ds = Nat.digitChar (n % 10) :: ds := by
  simp [Nat.toDigitsCore, h0]

lemma toDigitsCore_succ_pos (f n : Nat) (ds : List Char) (h0 : n / 10 ≠ 0) :
    Nat.toDigitsCore 10 (f + 1) n ds =
      Nat.toDigitsCore 10 f (n / 10) (Nat.digitChar (n % 10) :: ds) := by
  simp [Nat.toDigitsCore, h0]

lemma underscore_not_mem_toDigitsCore :
    ∀ (f n : Nat) (ds : List Char), '_' ∉ ds → '_' ∉ Nat.toDigitsCore 10 f n ds := by
  intro f
  induction f with
  | zero => intro n ds h; simpa [Nat.toDigitsCore] using h
  | succ f ih =>
    intro n ds h
    by_cases h0 : n / 10 = 0
    · rw [toDigitsCore_succ_zero f n ds h0]
      intro hc
      rcases List.mem_cons.1 hc with hc | hc
      · exact digitChar_ne_underscore (n % 10) hc.symm
      · exact h hc
    · rw [toDigitsCore_succ_pos f n ds h0]
      refine ih (n / 10) (Nat.digitChar (n % 10) :: ds) ?_
      intro hc
      rcases List.mem_cons.1 hc with hc | hc
      · exact digitChar_ne_underscore (n % 10) hc.symm
      · exact h hc

lemma lval_toDigitsCore :
    ∀ (f n : Nat), n < f → ∀ (ds : List Char) (a : Nat),
      lval (Nat.toDigitsCore 10 f n ds) a =
        lval ds (a * 10 ^ (Nat.toDigitsCore 10 f n []).length + n) := by
  intro f
  induction f with
  | zero => intro n hn; exact absurd hn (Nat.not_lt_zero n)
  | succ f ih =>
    intro n hn ds a
    by_cases h0 : n / 10 = 0
    · have hn10 : n < 10 := by omega
      rw [toDigitsCore_succ_zero f n ds h0, toDigitsCore_succ_zero f n [] h0]
      show lval ds (10 * a + charVal (Nat.digitChar (n % 10))) = _
      rw [charVal_digitChar (n % 10) (by omega)]
      have hmod : n % 10 = n := Nat.mod_eq_of_lt hn10
      rw [hmod]
      congr 1
      simp [pow_one]
      omega
    · have hlt : n / 10 < f := by
        have hge : 10 ≤ n := by omega
        have hdn : n / 10 < n := Nat.div_lt_self (by omega) (by norm_num)
        omega
      rw [toDigitsCore_succ_pos f n ds h0, toDigitsCore_succ_pos f n [] h0]
      rw [ih (n / 10) hlt]
      show lval ds
          (10 * (a * 10 ^ (Nat.toDigitsCore 10 f (n / 10) []).length + n / 10) +
            charVal (Nat.digitChar (n % 10))) = _
      rw [charVal_digitChar (n % 10) (by omega)]
      rw [Nat.toDigitsCore_lens_eq 10 f (n / 10) (Nat.digitChar (n % 10)) []]
      congr 1
      have hdm : 10 * (n / 10) + n % 10 = n := Nat.div_add_mod n 10
      calc 10 * (a * 10 ^ (Nat.toDigitsCore 10 f (n / 10) []).length + n / 10) + n % 10
          = a * (10 ^ (Nat.toDigitsCore 10 f (n / 10) []).length * 10) +
              (10 * (n / 10) + n % 10) := by ring
        _ = a * 10 ^ ((Nat.toDigitsCore 10 f (n / 10) []).length + 1) + n := by
              rw [hdm, pow_succ]

lemma lval_toDigits (n : Nat) : lval (Nat.toDigits 10 n) 0 = n := by
  unfold Nat.toDigits
  rw [lval_toDigitsCore (n + 1) n (Nat.lt_succ_self n) [] 0]
  simp [lval]

/-- The decimal rendering of a natural number is injective. -/
lemma nat_repr_injective {m n : Nat} (h : Nat.repr m = Nat.repr n) : m = n := by
  have hdig : Nat.toDigits 10 m = Nat.toDigits 10 n := by
    have hd := congrArg String.data h
    simpa [Nat.repr, List.asString] using hd
  rw [← lval_toDigits m, ← lval_toDigits n, hdig]

/-- The decimal rendering of a natural number contains no underscore. -/
lemma underscore_not_mem_repr (n : Nat) : '_' ∉ (Nat.repr n).data := by
  show '_' ∉ (Nat.toDigits 10 n).asString.data
  simpa [List.asString] using
    underscore_not_mem_toDigitsCore (n + 1) n [] (by simp)

/-- Splitting a list at an underscore separator is unambiguous when neither
left part contains an underscore. -/
lemma append_underscore_split :
    ∀ (a₁ b₁ a₂ b₂ : List Char), '_' ∉ a₁ → '_' ∉ a₂ →
      a₁ ++ '_' :: b₁ = a₂ ++ '_' :: b₂ → a₁ = a₂ ∧ b₁ = b₂ := by
  intro a₁
  induction a₁ with
  | nil =>
    intro b₁ a₂ b₂ _ h2 he
    cases a₂ with
    | nil =>
      simp only [List.nil_append, List.cons.injEq] at he
      exact ⟨rfl, he.2⟩
    | cons c t =>
      simp only [List.nil_append, List.cons_append, List.cons.injEq] at he
      exact absurd (he.1 ▸ List.mem_cons_self c t) h2
  | cons c t ih =>
    intro b₁ a₂ b₂ h1 h2 he
    cases a₂ with
    | nil =>
      simp only [List.cons_append, List.nil_append, List.cons.injEq] at he
      exact absurd (he.1 ▸ List.mem_cons_self c t) h1
    | cons c' t' =>
      simp only [List.cons_append, List.cons.injEq] at he
      obtain ⟨hc, ht⟩ := he
      have hrec := ih b₁ t' b₂ (fun hm => h1 (List.mem_cons_of_mem _ hm))
        (fun hm => h2 (List.mem_cons_of_mem _ hm)) ht
      exact ⟨by rw [hc, hrec.1], hrec.2⟩

/-- C5: the fingerprint is a pure function of `(path, byteSize, modTime)`;
for a fixed path it coincides on two stat results iff their size and
modification time coincide (verified on the digest input, of which the md5
hexdigest in the source is a fixed function); a failed stat yields no
fingerprint, and the caller then ignores the cache and re-parses. -/
theorem c5_fingerprint_deterministic (p : String) (s₁ s₂ : FileStat)
    (cache : String → Option (List FileInfo)) (parsed : List FileInfo) :
    (get_file_hash p (some s₁) = get_file_hash p (some s₂) ↔
        s₁.st_size = s₂.st_size ∧ s₁.st_mtime = s₂.st_mtime) ∧
      get_file_hash p none = none ∧
      process_single_file (get_file_hash p none) cache parsed = parsed := by
  refine ⟨⟨?_, ?_⟩, rfl, rfl⟩
  · intro h
    simp only [get_file_hash, Option.some.injEq] at h
    have hd := congrArg String.data h
    simp only [String.data_append] at hd
    simp only [List.append_assoc, List.singleton_append] at hd
    have hd' := List.append_cancel_left hd
    injection hd' with hc ht
    have hsplit := append_underscore_split _ _ _ _
      (underscore_not_mem_repr s₁.st_size) (underscore_not_mem_repr s₂.st_size) ht
    refine ⟨nat_repr_injective ?_, nat_repr_injective ?_⟩
    · exact congrArg String.mk hsplit.1
    · exact congrArg String.mk hsplit.2
  · rintro ⟨h1, h2⟩
    simp [get_file_hash, h1, h2]

theorem c5_witness :
    (⟨12, 35⟩ : FileStat).st_size = (⟨12, 35⟩ : FileStat).st_size ∧
      (⟨12, 35⟩ : FileStat).st_mtime = (⟨12, 35⟩ : FileStat).st_mtime :=
  (c5_fingerprint_deterministic "p" ⟨12, 35⟩ ⟨12, 35⟩ (fun _ => none) []).1.mp rfl

end Maspart
